import Mathlib

/-!
Verification of the `cmp_json` crate (`src/lib.rs`), which exports a single
function `cmp_expected(got: &Value, exp: &Value) -> bool` over
`serde_json::Value`.

The JSON value model is embedded as the inductive `Value` below.  Objects are
embedded as association lists of `(key, value)` pairs; `serde_json::Map`
guarantees unique keys, which the association-list embedding expresses by the
executable well-formedness predicate `wf`.  Numbers are embedded as `Int`
(the claims under verification never distinguish integer from floating
payloads; they rely only on type-and-value equality of the number kind).
-/

set_option autoImplicit false

inductive Value where
  | null : Value
  | bool : Bool → Value
  | num : Int → Value
  | str : String → Value
  | arr : List Value → Value
  | obj : List (String × Value) → Value
deriving Repr

mutual

/-- Embedding of `PartialEq` on `serde_json::Value`: variant-and-payload
equality, elementwise on arrays and entrywise on objects.  (`serde_json`'s
default `Map` is a `BTreeMap`, which stores entries sorted by key, so a map is
a canonical entry sequence and map equality is entry-sequence equality.) -/
def beqValue : Value → Value → Bool
  | Value.null, Value.null => true
  | Value.bool a, Value.bool b => a == b
  | Value.num a, Value.num b => a == b
  | Value.str a, Value.str b => a == b
  | Value.arr xs, Value.arr ys => beqValueList xs ys
  | Value.obj xs, Value.obj ys => beqObjList xs ys
  | _, _ => false

def beqValueList : List Value → List Value → Bool
  | [], [] => true
  | x :: xs, y :: ys => beqValue x y && beqValueList xs ys
  | _, _ => false

def beqObjList : List (String × Value) → List (String × Value) → Bool
  | [], [] => true
  | (k, v) :: xs, (k', v') :: ys => k == k' && beqValue v v' && beqObjList xs ys
  | _, _ => false

end

instance : BEq Value := ⟨beqValue⟩

theorem beq_def (a b : Value) : (a == b) = beqValue a b := rfl

/-- Embedding of `serde_json`'s `Value::as_array`: `Some` of the element list
when the value is an `Array`, otherwise `None`. -/
def as_array : Value → Option (List Value)
  | Value.arr xs => some xs
  | _ => none

/-- Embedding of `serde_json`'s `Value::as_object`: `Some` of the key/value
entries when the value is an `Object`, otherwise `None`. -/
def as_object : Value → Option (List (String × Value))
  | Value.obj kvs => some kvs
  | _ => none

/-- Embedding of `serde_json::Map::get`: the value stored under key `k`
(first entry with that key in the association-list embedding). -/
def getKey (kvs : List (String × Value)) (k : String) : Option Value :=
  match kvs with
  | [] => none
  | (k', v) :: rest => if k' = k then some v else getKey rest k

mutual

/-- Embedding of `cmp_expected` from `src/lib.rs`.  Dispatch is on the shape
of `exp`: Array requires `got` an array of equal length with pairwise
recursive matches, Object requires `got` an object containing every key of
`exp` with recursively matching values, and any scalar `exp` requires
`got == exp`. -/
def cmp_expected (got exp : Value) : Bool :=
  match exp with
  | Value.arr e_arr =>
    match as_array got with
    | some g_arr =>
      if e_arr.length ≠ g_arr.length then false
      else cmpZipAll e_arr g_arr
    | none => false
  | Value.obj e_obj =>
    match as_object got with
    | some g_obj => cmpObjAll g_obj e_obj
    | none => false
  | _ => got == exp

/-- Embedding of `e_arr.iter().zip(g_arr.iter()).all(|(e, g)| cmp_expected(g, e))`:
walks both lists in lockstep (stopping at the shorter, as `zip` does) and
requires every aligned pair to match, short-circuiting on the first failure. -/
def cmpZipAll (e_arr g_arr : List Value) : Bool :=
  match e_arr, g_arr with
  | [], _ => true
  | _, [] => true
  | e :: es, g :: gs => cmp_expected g e && cmpZipAll es gs

/-- Embedding of
`e_obj.iter().all(|(k, e_val)| match g_obj.get(k) {...})`: every entry of the
expected object must have a matching entry in `g_obj`, short-circuiting on the
first failure. -/
def cmpObjAll (g_obj e_obj : List (String × Value)) : Bool :=
  match e_obj with
  | [] => true
  | (k, e_val) :: rest =>
    (match getKey g_obj k with
     | some g_val => cmp_expected g_val e_val
     | none => false) && cmpObjAll g_obj rest

end

/-- Nested induction principle for `Value`: to prove `P` everywhere it
suffices to prove it for each constructor, assuming it for every array
element and every object entry value. -/
def Value.inductionOn (P : Value → Prop)
    (hnull : P Value.null) (hbool : ∀ b, P (Value.bool b))
    (hnum : ∀ n, P (Value.num n)) (hstr : ∀ s, P (Value.str s))
    (harr : ∀ xs, (∀ x ∈ xs, P x) → P (Value.arr xs))
    (hobj : ∀ kvs, (∀ kv ∈ kvs, P kv.2) → P (Value.obj kvs)) :
    ∀ v, P v
  | Value.null => hnull
  | Value.bool b => hbool b
  | Value.num n => hnum n
  | Value.str s => hstr s
  | Value.arr xs =>
    harr xs (fun x hx =>
      Value.inductionOn P hnull hbool hnum hstr harr hobj x)
  | Value.obj kvs =>
    hobj kvs (fun kv hkv =>
      Value.inductionOn P hnull hbool hnum hstr harr hobj kv.2)
termination_by v => sizeOf v
decreasing_by
  · have := List.sizeOf_lt_of_mem hx
    simp only [Value.arr.sizeOf_spec]
    omega
  · obtain ⟨k, v⟩ := kv
    have h1 := List.sizeOf_lt_of_mem hkv
    simp only [Prod.mk.sizeOf_spec] at h1
    simp only [Value.obj.sizeOf_spec]
    omega

mutual

/-- Nesting depth of a value: scalars have depth 0, arrays and objects one
more than the greatest depth among their children. -/
def depth : Value → Nat
  | Value.arr xs => 1 + depthList xs
  | Value.obj kvs => 1 + depthObjList kvs
  | _ => 0

def depthList : List Value → Nat
  | [] => 0
  | x :: xs => max (depth x) (depthList xs)

def depthObjList : List (String × Value) → Nat
  | [] => 0
  | kv :: rest => max (depth kv.2) (depthObjList rest)

end

mutual

/-- Fuel-instrumented variant of `cmp_expected`: consumes one unit of fuel
per level of recursion into `exp` and returns `none` when the fuel runs out.
It makes the recursion depth of the source function observable: `cmp_expected`
needs no more levels than `depth exp + 1`. -/
def cmpFuel : Nat → Value → Value → Option Bool
  | 0, _, _ => none
  | Nat.succ fuel, got, exp =>
    match exp with
    | Value.arr e_arr =>
      match as_array got with
      | some g_arr =>
        if e_arr.length ≠ g_arr.length then some false
        else cmpZipAllFuel fuel e_arr g_arr
      | none => some false
    | Value.obj e_obj =>
      match as_object got with
      | some g_obj => cmpObjAllFuel fuel g_obj e_obj
      | none => some false
    | _ => some (got == exp)

def cmpZipAllFuel (fuel : Nat) : List Value → List Value → Option Bool
  | [], _ => some true
  | _, [] => some true
  | e :: es, g :: gs =>
    match cmpFuel fuel g e with
    | none => none
    | some false => some false
    | some true => cmpZipAllFuel fuel es gs

def cmpObjAllFuel (fuel : Nat) (g_obj : List (String × Value)) :
    List (String × Value) → Option Bool
  | [] => some true
  | (k, e_val) :: rest =>
    match (match getKey g_obj k with
           | some g_val => cmpFuel fuel g_val e_val
           | none => some false) with
    | none => none
    | some false => some false
    | some true => cmpObjAllFuel fuel g_obj rest

end

/-- No string occurs twice in the list (the key-uniqueness invariant that
`serde_json::Map` provides for object keys). -/
def keysDistinct : List String → Bool
  | [] => true
  | k :: ks => !(ks.contains k) && keysDistinct ks

mutual

/-- Well-formedness of the association-list embedding: every object that
occurs anywhere in the value has pairwise-distinct keys.  Every
`serde_json::Value` satisfies this, since `serde_json::Map` cannot hold two
entries with the same key. -/
def wf : Value → Bool
  | Value.arr xs => wfList xs
  | Value.obj kvs => keysDistinct (kvs.map Prod.fst) && wfObjList kvs
  | _ => true

def wfList : List Value → Bool
  | [] => true
  | x :: xs => wf x && wfList xs

def wfObjList : List (String × Value) → Bool
  | [] => true
  | kv :: rest => wf kv.2 && wfObjList rest

end

/-- `true` exactly on the scalar variants (Null, Bool, Number, String). -/
def isScalar : Value → Bool
  | Value.arr _ => false
  | Value.obj _ => false
  | _ => true

theorem beqValueList_iff (xs : List Value)
    (h : ∀ x ∈ xs, ∀ b, beqValue x b = true ↔ x = b) :
    ∀ ys, beqValueList xs ys = true ↔ xs = ys := by
  induction xs with
  | nil => intro ys; cases ys <;> simp [beqValueList]
  | cons x xs ih =>
    intro ys
    cases ys with
    | nil => simp [beqValueList]
    | cons y ys =>
      have hx := h x (List.mem_cons_self x xs) y
      have hrest := ih (fun z hz => h z (List.mem_cons_of_mem x hz)) ys
      simp [beqValueList, hx, hrest]

theorem beqObjList_iff (xs : List (String × Value))
    (h : ∀ kv ∈ xs, ∀ b, beqValue kv.2 b = true ↔ kv.2 = b) :
    ∀ ys, beqObjList xs ys = true ↔ xs = ys := by
  induction xs with
  | nil => intro ys; cases ys <;> simp [beqObjList]
  | cons kv xs ih =>
    intro ys
    obtain ⟨k, v⟩ := kv
    cases ys with
    | nil => simp [beqObjList]
    | cons kv' ys =>
      obtain ⟨k', v'⟩ := kv'
      have hv := h (k, v) (List.mem_cons_self _ xs) v'
      have hrest := ih (fun z hz => h z (List.mem_cons_of_mem _ hz)) ys
      simp [beqObjList, hv, hrest, Bool.and_assoc, and_assoc]

theorem beqValue_iff (a : Value) : ∀ b : Value, beqValue a b = true ↔ a = b := by
  induction a using Value.inductionOn with
  | hnull => intro b; cases b <;> simp [beqValue]
  | hbool bv => intro b; cases b <;> simp [beqValue]
  | hnum n => intro b; cases b <;> simp [beqValue]
  | hstr s => intro b; cases b <;> simp [beqValue]
  | harr xs ih =>
    intro b
    cases b <;> simp [beqValue]
    exact beqValueList_iff xs ih _
  | hobj kvs ih =>
    intro b
    cases b <;> simp [beqValue]
    exact beqObjList_iff kvs ih _

theorem getKey_mem (kvs : List (String × Value)) (k : String) (v : Value)
    (h : getKey kvs k = some v) : (k, v) ∈ kvs := by
  induction kvs with
  | nil => simp [getKey] at h
  | cons kv rest ih =>
    obtain ⟨k', v'⟩ := kv
    by_cases hk : k' = k
    · subst hk
      simp [getKey] at h
      subst h
      exact List.mem_cons_self _ _
    · simp [getKey, hk] at h
      exact List.mem_cons_of_mem _ (ih h)

theorem getKey_eq_of_distinct (kvs : List (String × Value))
    (hd : keysDistinct (kvs.map Prod.fst) = true) (k : String) (v : Value)
    (hm : (k, v) ∈ kvs) : getKey kvs k = some v := by
  induction kvs with
  | nil => simp at hm
  | cons kv rest ih =>
    obtain ⟨k', v'⟩ := kv
    simp only [List.map_cons, keysDistinct, Bool.and_eq_true, Bool.not_eq_true'] at hd
    rcases List.mem_cons.mp hm with heq | hmem
    · obtain ⟨rfl, rfl⟩ := Prod.mk.injEq .. ▸ heq
      simp [getKey]
    · by_cases hk : k' = k
      · subst hk
        exfalso
        have hmk : k' ∈ rest.map Prod.fst := List.mem_map.mpr ⟨(k', v), hmem, rfl⟩
        have hnc := hd.1
        simp at hnc
        exact absurd hmem (by simpa using hnc v)
      · simp only [getKey, hk, if_false]
        exact ih hd.2 hmem

theorem cmpObjAll_eq_true_iff (g_obj : List (String × Value)) :
    ∀ e_obj, cmpObjAll g_obj e_obj = true ↔
      ∀ k e_val, (k, e_val) ∈ e_obj →
        ∃ g_val, getKey g_obj k = some g_val ∧
          cmp_expected g_val e_val = true := by
  intro e_obj
  induction e_obj with
  | nil => simp [cmpObjAll]
  | cons kv rest ih =>
    obtain ⟨k, ev⟩ := kv
    cases hg : getKey g_obj k with
    | none =>
      simp only [cmpObjAll, hg, Bool.false_and, Bool.false_eq_true, false_iff]
      intro hall
      obtain ⟨gv, hgv, _⟩ := hall k ev (List.mem_cons_self _ _)
      rw [hg] at hgv
      cases hgv
    | some gv =>
      simp only [cmpObjAll, hg, Bool.and_eq_true, ih]
      constructor
      · rintro ⟨h1, h2⟩ k' ev' hm
        rcases List.mem_cons.mp hm with heq | hmem
        · obtain ⟨rfl, rfl⟩ := Prod.mk.injEq .. ▸ heq
          exact ⟨gv, hg, h1⟩
        · exact h2 k' ev' hmem
      · intro hall
        refine ⟨?_, fun k' ev' hmem => hall k' ev' (List.mem_cons_of_mem _ hmem)⟩
        obtain ⟨gv', hgv', hcmp⟩ := hall k ev (List.mem_cons_self _ _)
        rw [hg] at hgv'
        cases hgv'
        exact hcmp

theorem cmpZipAll_eq_true_iff :
    ∀ e_arr g_arr : List Value, cmpZipAll e_arr g_arr = true ↔
      ∀ (i : Nat) (hi : i < e_arr.length) (hg : i < g_arr.length),
        cmp_expected (g_arr.get ⟨i, hg⟩) (e_arr.get ⟨i, hi⟩) = true := by
  intro e_arr
  induction e_arr with
  | nil => intro g_arr; simp [cmpZipAll]
  | cons e es ih =>
    intro g_arr
    cases g_arr with
    | nil =>
      simp only [cmpZipAll, List.length_nil, true_iff]
      intro i hi hg
      omega
    | cons g gs =>
      simp only [cmpZipAll, Bool.and_eq_true, ih gs]
      constructor
      · rintro ⟨h1, h2⟩ i hi hg
        match i with
        | 0 => exact h1
        | Nat.succ j =>
          simpa using h2 j (by simpa using hi) (by simpa using hg)
      · intro hall
        refine ⟨hall 0 (by simp) (by simp), fun j hj hg' => ?_⟩
        simpa using hall (j + 1) (by simpa using hj) (by simpa using hg')

theorem depth_le_of_mem (xs : List Value) (x : Value) (h : x ∈ xs) :
    depth x ≤ depthList xs := by
  induction xs with
  | nil => simp at h
  | cons y ys ih =>
    rcases List.mem_cons.mp h with rfl | hm
    · rw [depthList]
      exact Nat.le_max_left _ _
    · rw [depthList]
      exact le_trans (ih hm) (Nat.le_max_right _ _)

theorem depth_le_of_mem_obj (kvs : List (String × Value)) (kv : String × Value)
    (h : kv ∈ kvs) : depth kv.2 ≤ depthObjList kvs := by
  induction kvs with
  | nil => simp at h
  | cons kv' rest ih =>
    rcases List.mem_cons.mp h with rfl | hm
    · rw [depthObjList]
      exact Nat.le_max_left _ _
    · rw [depthObjList]
      exact le_trans (ih hm) (Nat.le_max_right _ _)

theorem cmpZipAllFuel_sound (fuel : Nat) (es : List Value)
    (h : ∀ e ∈ es, ∀ got, cmpFuel fuel got e = some (cmp_expected got e)) :
    ∀ gs, cmpZipAllFuel fuel es gs = some (cmpZipAll es gs) := by
  induction es with
  | nil => intro gs; cases gs <;> simp [cmpZipAllFuel, cmpZipAll]
  | cons e es ih =>
    intro gs
    cases gs with
    | nil => simp [cmpZipAllFuel, cmpZipAll]
    | cons g gs =>
      have he := h e (List.mem_cons_self _ _) g
      have hrest := ih (fun z hz => h z (List.mem_cons_of_mem _ hz)) gs
      simp only [cmpZipAllFuel, cmpZipAll, he]
      cases hc : cmp_expected g e <;> simp [hrest]

theorem cmpObjAllFuel_sound (fuel : Nat) (e_obj : List (String × Value))
    (h : ∀ kv ∈ e_obj, ∀ got, cmpFuel fuel got kv.2 = some (cmp_expected got kv.2)) :
    ∀ g_obj, cmpObjAllFuel fuel g_obj e_obj = some (cmpObjAll g_obj e_obj) := by
  induction e_obj with
  | nil => intro g_obj; simp [cmpObjAllFuel, cmpObjAll]
  | cons kv rest ih =>
    intro g_obj
    obtain ⟨k, ev⟩ := kv
    have hrest := ih (fun z hz => h z (List.mem_cons_of_mem _ hz)) g_obj
    cases hg : getKey g_obj k with
    | none => simp [cmpObjAllFuel, cmpObjAll, hg]
    | some gv =>
      have he := h (k, ev) (List.mem_cons_self _ _) gv
      simp only [cmpObjAllFuel, cmpObjAll, hg, he]
      cases hc : cmp_expected gv ev <;> simp [hrest]

theorem cmpFuel_sound : ∀ exp : Value, ∀ got fuel, depth exp < fuel →
    cmpFuel fuel got exp = some (cmp_expected got exp) := by
  intro exp
  induction exp using Value.inductionOn with
  | hnull =>
    intro got fuel h
    cases fuel with
    | zero => omega
    | succ f => simp [cmpFuel, cmp_expected]
  | hbool b =>
    intro got fuel h
    cases fuel with
    | zero => omega
    | succ f => simp [cmpFuel, cmp_expected]
  | hnum n =>
    intro got fuel h
    cases fuel with
    | zero => omega
    | succ f => simp [cmpFuel, cmp_expected]
  | hstr s =>
    intro got fuel h
    cases fuel with
    | zero => omega
    | succ f => simp [cmpFuel, cmp_expected]
  | harr xs ih =>
    intro got fuel h
    cases fuel with
    | zero => omega
    | succ f =>
      have hf : ∀ e ∈ xs, ∀ g, cmpFuel f g e = some (cmp_expected g e) := by
        intro e he g
        refine ih e he g f ?_
        have hd := depth_le_of_mem xs e he
        rw [depth] at h
        omega
      cases got with
      | arr gs =>
        by_cases hlen : xs.length = gs.length
        · simp [cmpFuel, cmp_expected, as_array, hlen,
            cmpZipAllFuel_sound f xs hf gs]
        · simp [cmpFuel, cmp_expected, as_array, hlen]
      | null => simp [cmpFuel, cmp_expected, as_array]
      | bool b => simp [cmpFuel, cmp_expected, as_array]
      | num n => simp [cmpFuel, cmp_expected, as_array]
      | str s => simp [cmpFuel, cmp_expected, as_array]
      | obj kvs => simp [cmpFuel, cmp_expected, as_array]
  | hobj kvs ih =>
    intro got fuel h
    cases fuel with
    | zero => omega
    | succ f =>
      have hf : ∀ kv ∈ kvs, ∀ g, cmpFuel f g kv.2 = some (cmp_expected g kv.2) := by
        intro kv hkv g
        refine ih kv hkv g f ?_
        have hd := depth_le_of_mem_obj kvs kv hkv
        rw [depth] at h
        omega
      cases got with
      | obj g_obj =>
        simp [cmpFuel, cmp_expected, as_object, cmpObjAllFuel_sound f kvs hf g_obj]
      | null => simp [cmpFuel, cmp_expected, as_object]
      | bool b => simp [cmpFuel, cmp_expected, as_object]
      | num n => simp [cmpFuel, cmp_expected, as_object]
      | str s => simp [cmpFuel, cmp_expected, as_object]
      | arr gs => simp [cmpFuel, cmp_expected, as_object]

theorem wfList_mem (xs : List Value) (h : wfList xs = true) :
    ∀ x ∈ xs, wf x = true := by
  induction xs with
  | nil => simp
  | cons y ys ih =>
    rw [wfList, Bool.and_eq_true] at h
    intro x hx
    rcases List.mem_cons.mp hx with rfl | hm
    · exact h.1
    · exact ih h.2 x hm

theorem wfObjList_mem (kvs : List (String × Value)) (h : wfObjList kvs = true) :
    ∀ kv ∈ kvs, wf kv.2 = true := by
  induction kvs with
  | nil => simp
  | cons kv' rest ih =>
    rw [wfObjList, Bool.and_eq_true] at h
    intro kv hkv
    rcases List.mem_cons.mp hkv with rfl | hm
    · exact h.1
    · exact ih h.2 kv hm

theorem cmpZipAll_self (xs : List Value) (h : ∀ x ∈ xs, cmp_expected x x = true) :
    cmpZipAll xs xs = true := by
  induction xs with
  | nil => simp [cmpZipAll]
  | cons x xs ih =>
    simp [cmpZipAll, h x (List.mem_cons_self _ _),
      ih (fun z hz => h z (List.mem_cons_of_mem _ hz))]

theorem cmp_obj_iff (got : Value) (e_obj : List (String × Value)) :
    cmp_expected got (Value.obj e_obj) = true ↔
      ∃ g_obj, got = Value.obj g_obj ∧
        ∀ k e_val, (k, e_val) ∈ e_obj →
          ∃ g_val, getKey g_obj k = some g_val ∧
            cmp_expected g_val e_val = true := by
  cases got with
  | obj g_obj =>
    simp only [cmp_expected, as_object]
    rw [cmpObjAll_eq_true_iff]
    constructor
    · intro h
      exact ⟨g_obj, rfl, h⟩
    · rintro ⟨g', heq, h⟩
      injection heq with h'
      subst h'
      exact h
  | null => simp [cmp_expected, as_object]
  | bool b => simp [cmp_expected, as_object]
  | num n => simp [cmp_expected, as_object]
  | str s => simp [cmp_expected, as_object]
  | arr xs => simp [cmp_expected, as_object]

theorem cmp_arr_iff (got : Value) (e_arr : List Value) :
    cmp_expected got (Value.arr e_arr) = true ↔
      ∃ g_arr, got = Value.arr g_arr ∧ g_arr.length = e_arr.length ∧
        ∀ (i : Nat) (hi : i < e_arr.length) (hg : i < g_arr.length),
          cmp_expected (g_arr.get ⟨i, hg⟩) (e_arr.get ⟨i, hi⟩) = true := by
  cases got with
  | arr g_arr =>
    by_cases hlen : e_arr.length = g_arr.length
    · simp only [cmp_expected, as_array]
      rw [if_neg (not_not_intro hlen)]
      rw [cmpZipAll_eq_true_iff]
      constructor
      · intro h
        exact ⟨g_arr, rfl, hlen.symm, h⟩
      · rintro ⟨g', heq, hl, h⟩
        injection heq with h'
        subst h'
        exact h
    · simp only [cmp_expected, as_array, if_pos hlen, Bool.false_eq_true,
        false_iff]
      rintro ⟨g', heq, hl, _⟩
      injection heq with h'
      subst h'
      exact hlen hl.symm
  | null => simp [cmp_expected, as_array]
  | bool b => simp [cmp_expected, as_array]
  | num n => simp [cmp_expected, as_array]
  | str s => simp [cmp_expected, as_array]
  | obj kvs => simp [cmp_expected, as_array]

theorem cmp_refl : ∀ v : Value, wf v = true → cmp_expected v v = true := by
  intro v
  induction v using Value.inductionOn with
  | hnull => intro h; simp [cmp_expected, beq_def, beqValue]
  | hbool b => intro h; simp [cmp_expected, beq_def, beqValue]
  | hnum n => intro h; simp [cmp_expected, beq_def, beqValue]
  | hstr s => intro h; simp [cmp_expected, beq_def, beqValue]
  | harr xs ih =>
    intro h
    have hx : ∀ x ∈ xs, cmp_expected x x = true := fun x hx' =>
      ih x hx' (wfList_mem xs (by rw [wf] at h; exact h) x hx')
    simp [cmp_expected, as_array, cmpZipAll_self xs hx]
  | hobj kvs ih =>
    intro h
    rw [wf, Bool.and_eq_true] at h
    have hx : ∀ kv ∈ kvs, cmp_expected kv.2 kv.2 = true := fun kv hkv =>
      ih kv hkv (wfObjList_mem kvs h.2 kv hkv)
    simp only [cmp_expected, as_object]
    rw [cmpObjAll_eq_true_iff]
    intro k ev hm
    exact ⟨ev, getKey_eq_of_distinct kvs h.1 k ev hm, hx (k, ev) hm⟩

/-- C1: for every pair `(got, exp)` where `exp` is an Object,
`cmp_expected got exp` returns `true` iff `got` is also an Object and every
key of `exp` occurs in `got` with a recursively matching value; keys of
`got` absent from `exp` play no role, and a non-Object `got` or a missing
key yields `false`. -/
theorem c1_object_subset_semantics (got : Value) (e_obj : List (String × Value)) :
    cmp_expected got (Value.obj e_obj) = true ↔
      ∃ g_obj, got = Value.obj g_obj ∧
        ∀ k e_val, (k, e_val) ∈ e_obj →
          ∃ g_val, getKey g_obj k = some g_val ∧
            cmp_expected g_val e_val = true :=
  cmp_obj_iff got e_obj

/-- C2: for every pair `(got, exp)` where `exp` is an Array,
`cmp_expected got exp` returns `true` iff `got` is also an Array of exactly
the same length and every index-aligned pair of elements matches
recursively; any length mismatch or non-Array `got` yields `false`. -/
theorem c2_array_exact_semantics (got : Value) (e_arr : List Value) :
    cmp_expected got (Value.arr e_arr) = true ↔
      ∃ g_arr, got = Value.arr g_arr ∧ g_arr.length = e_arr.length ∧
        ∀ (i : Nat) (hi : i < e_arr.length) (hg : i < g_arr.length),
          cmp_expected (g_arr.get ⟨i, hg⟩) (e_arr.get ⟨i, hi⟩) = true :=
  cmp_arr_iff got e_arr

/-- C3: for every pair `(got, exp)` where `exp` is a scalar (Null, Bool,
Number or String), `cmp_expected got exp` returns `true` iff `got` equals
`exp` under the value model's type-and-value equality; scalars of different
kinds never match. -/
theorem c3_scalar_native_equality (got exp : Value) (h : isScalar exp = true) :
    cmp_expected got exp = true ↔ got = exp := by
  cases exp with
  | arr xs => simp [isScalar] at h
  | obj kvs => simp [isScalar] at h
  | null =>
    simp only [cmp_expected, beq_def]
    exact beqValue_iff got _
  | bool b =>
    simp only [cmp_expected, beq_def]
    exact beqValue_iff got _
  | num n =>
    simp only [cmp_expected, beq_def]
    exact beqValue_iff got _
  | str s =>
    simp only [cmp_expected, beq_def]
    exact beqValue_iff got _

theorem c3_scalar_native_equality_witness :
    cmp_expected (Value.num 6) (Value.num 6) = true :=
  (c3_scalar_native_equality (Value.num 6) (Value.num 6) rfl).mpr rfl

/-- C4: `cmp_expected` is total: instrumented with fuel `depth exp + 1` it
returns `some` of the same boolean (it never runs out of fuel, i.e. never
aborts), and shape disagreements — `exp` an Array but `got` not, or `exp`
an Object but `got` not — yield `false` rather than an error. -/
theorem c4_totality (got exp : Value) :
    (∃ b : Bool, cmpFuel (depth exp + 1) got exp = some b ∧
      cmp_expected got exp = b) ∧
    (as_array got = none → (∃ e_arr, exp = Value.arr e_arr) →
      cmp_expected got exp = false) ∧
    (as_object got = none → (∃ e_obj, exp = Value.obj e_obj) →
      cmp_expected got exp = false) := by
  refine ⟨⟨cmp_expected got exp, cmpFuel_sound exp got _ (by omega), rfl⟩, ?_, ?_⟩
  · rintro hga ⟨e_arr, rfl⟩
    simp [cmp_expected, hga]
  · rintro hgo ⟨e_obj, rfl⟩
    simp [cmp_expected, hgo]

theorem c4_totality_witness :
    cmp_expected (Value.num 0) (Value.arr []) = false :=
  (c4_totality (Value.num 0) (Value.arr [])).2.1 rfl ⟨[], rfl⟩

/-- C5: `cmp_expected` terminates with recursion depth bounded by the
nesting depth of `exp`: the fuel-instrumented variant already succeeds (and
agrees with `cmp_expected`) on any fuel exceeding `depth exp`, because every
recursive call descends into a direct child of `exp`. -/
theorem c5_termination_depth_bound (got exp : Value) (fuel : Nat)
    (h : depth exp < fuel) :
    cmpFuel fuel got exp = some (cmp_expected got exp) :=
  cmpFuel_sound exp got fuel h

theorem c5_termination_depth_bound_witness :
    cmpFuel 1 (Value.bool true) Value.null =
      some (cmp_expected (Value.bool true) Value.null) :=
  c5_termination_depth_bound (Value.bool true) Value.null 1 (by simp [depth])

/-- C6: an empty expected Object matches every Object, while an empty
expected Array matches an Array exactly when that array is itself empty. -/
theorem c6_empty_expectation (g_obj : List (String × Value)) (g_arr : List Value) :
    cmp_expected (Value.obj g_obj) (Value.obj []) = true ∧
    (cmp_expected (Value.arr g_arr) (Value.arr []) = true ↔ g_arr = []) := by
  constructor
  · simp [cmp_expected, as_object, cmpObjAll]
  · cases g_arr with
    | nil => simp [cmp_expected, as_array, cmpZipAll]
    | cons x xs => simp [cmp_expected, as_array]

/-- C7: `cmp_expected` is not commutative: with
`got = {"a":1,"b":2}` and `exp = {"a":1}` the forward comparison succeeds
while the reversed one fails, so there are values on which the two argument
orders disagree. -/
theorem c7_not_commutative :
    cmp_expected (Value.obj [("a", Value.num 1), ("b", Value.num 2)])
      (Value.obj [("a", Value.num 1)]) = true ∧
    cmp_expected (Value.obj [("a", Value.num 1)])
      (Value.obj [("a", Value.num 1), ("b", Value.num 2)]) = false ∧
    ∃ a b : Value, cmp_expected a b ≠ cmp_expected b a := by
  have h1 : cmp_expected (Value.obj [("a", Value.num 1), ("b", Value.num 2)])
      (Value.obj [("a", Value.num 1)]) = true := by
    simp [cmp_expected, as_object, cmpObjAll, getKey, beq_def, beqValue]
  have h2 : cmp_expected (Value.obj [("a", Value.num 1)])
      (Value.obj [("a", Value.num 1), ("b", Value.num 2)]) = false := by
    simp [cmp_expected, as_object, cmpObjAll, getKey, beq_def, beqValue]
  refine ⟨h1, h2,
    ⟨Value.obj [("a", Value.num 1), ("b", Value.num 2)],
     Value.obj [("a", Value.num 1)], ?_⟩⟩
  rw [h1, h2]
  simp

/-- C8: reflexivity over scalars: every scalar value (Null, Bool, Number or
String) matches itself. -/
theorem c8_scalar_reflexivity (v : Value) (h : isScalar v = true) :
    cmp_expected v v = true := by
  cases v with
  | arr xs => simp [isScalar] at h
  | obj kvs => simp [isScalar] at h
  | null => simp [cmp_expected, beq_def, beqValue]
  | bool b => simp [cmp_expected, beq_def, beqValue]
  | num n => simp [cmp_expected, beq_def, beqValue]
  | str s => simp [cmp_expected, beq_def, beqValue]

theorem c8_scalar_reflexivity_witness : cmp_expected Value.null Value.null = true :=
  c8_scalar_reflexivity Value.null rfl

/-- C9: native equality implies a match: for well-formed values (object keys
unique, as `serde_json::Map` guarantees), `v == w` implies
`cmp_expected v w = true`; in particular every value, arrays and objects
included, matches itself. -/
theorem c9_eq_implies_match (v w : Value) (hwf : wf v = true)
    (h : (v == w) = true) : cmp_expected v w = true := by
  have heq : v = w := (beqValue_iff v w).mp (by rw [beq_def] at h; exact h)
  subst heq
  exact cmp_refl v hwf

theorem c9_eq_implies_match_witness :
    cmp_expected (Value.arr [Value.num 1]) (Value.arr [Value.num 1]) = true :=
  c9_eq_implies_match (Value.arr [Value.num 1]) (Value.arr [Value.num 1])
    (by simp [wf, wfList]) (by simp [beq_def, beqValue, beqValueList])

/-- C10: transitivity: whenever `a` matches pattern `b` and `b` matches
pattern `c`, `a` matches pattern `c`. -/
theorem c10_transitivity (a b c : Value) (hab : cmp_expected a b = true)
    (hbc : cmp_expected b c = true) : cmp_expected a c = true := by
  induction c using Value.inductionOn generalizing a b with
  | hnull =>
    have hb : b = Value.null :=
      (beqValue_iff b _).mp (by simp only [cmp_expected, beq_def] at hbc; exact hbc)
    subst hb
    exact hab
  | hbool bv =>
    have hb : b = Value.bool bv :=
      (beqValue_iff b _).mp (by simp only [cmp_expected, beq_def] at hbc; exact hbc)
    subst hb
    exact hab
  | hnum n =>
    have hb : b = Value.num n :=
      (beqValue_iff b _).mp (by simp only [cmp_expected, beq_def] at hbc; exact hbc)
    subst hb
    exact hab
  | hstr s =>
    have hb : b = Value.str s :=
      (beqValue_iff b _).mp (by simp only [cmp_expected, beq_def] at hbc; exact hbc)
    subst hb
    exact hab
  | harr cs ih =>
    obtain ⟨bs, rfl, hlen_bc, hpt_bc⟩ := (cmp_arr_iff b cs).mp hbc
    obtain ⟨as', rfl, hlen_ab, hpt_ab⟩ := (cmp_arr_iff a bs).mp hab
    refine (cmp_arr_iff _ cs).mpr ⟨as', rfl, by omega, ?_⟩
    intro i hi hg
    have hib : i < bs.length := by omega
    exact ih (cs.get ⟨i, hi⟩) (List.get_mem cs i hi) _ _
      (hpt_ab i hib hg) (hpt_bc i hi hib)
  | hobj c_obj ih =>
    obtain ⟨b_obj, rfl, hbc'⟩ := (cmp_obj_iff b c_obj).mp hbc
    obtain ⟨a_obj, rfl, hab'⟩ := (cmp_obj_iff a b_obj).mp hab
    refine (cmp_obj_iff _ c_obj).mpr ⟨a_obj, rfl, ?_⟩
    intro k cv hm
    obtain ⟨bv, hgb, hcmp_bc⟩ := hbc' k cv hm
    obtain ⟨av, hga, hcmp_ab⟩ := hab' k bv (getKey_mem b_obj k bv hgb)
    exact ⟨av, hga, ih (k, cv) hm av bv hcmp_ab hcmp_bc⟩

theorem c10_transitivity_witness :
    cmp_expected (Value.obj [("a", Value.num 1), ("b", Value.num 2)])
      (Value.obj []) = true :=
  c10_transitivity (Value.obj [("a", Value.num 1), ("b", Value.num 2)])
    (Value.obj [("a", Value.num 1)]) (Value.obj [])
    (by simp [cmp_expected, as_object, cmpObjAll, getKey, beq_def, beqValue])
    (by simp [cmp_expected, as_object, cmpObjAll])
